import Mathlib

/-!
Verification of the rainbow-table password toolkit
(`hashassin`: core CLI library plus networked server) against its
natural-language specification.

The Rust sources are shallowly embedded: machine integers become `Nat`
with explicit `% 2^w` where wrap-around matters, fallible or panicking
code returns `Option`/`Except`, and the concurrent pipelines are
modelled by their sequential linearisations (per-item effects are
order-independent for every property proved here).  Each definition is
translated from the function of the same name in the repository; the
file paths are given in the doc comments.
-/

set_option maxRecDepth 4096

/-- Little-endian interpretation of a byte list as an unsigned integer
(`U512::from_little_endian` / the per-word loads inside MD5). -/
def fromLEBytes (bs : List Nat) : Nat :=
  bs.foldr (fun b acc => b + 256 * acc) 0

/-- The `n` little-endian bytes of `k` (`to_le_bytes`). -/
def leBytes (n k : Nat) : List Nat :=
  (List.range n).map (fun i => (k >>> (8 * i)) % 256)

/-- UTF-8 encoding of a single character (RFC 3629), matching Rust's
`str::as_bytes` view of a `String`. -/
def utf8Bytes (c : Char) : List Nat :=
  let n := c.toNat
  if n < 128 then [n]
  else if n < 2048 then [192 ||| (n >>> 6), 128 ||| (n &&& 63)]
  else if n < 65536 then
    [224 ||| (n >>> 12), 128 ||| ((n >>> 6) &&& 63), 128 ||| (n &&& 63)]
  else
    [240 ||| (n >>> 18), 128 ||| ((n >>> 12) &&& 63),
     128 ||| ((n >>> 6) &&& 63), 128 ||| (n &&& 63)]

/-- The UTF-8 bytes of a string, as Rust's `String::as_bytes` /
`String::into_bytes` produce them. -/
def strBytes (s : String) : List Nat :=
  s.data.flatMap utf8Bytes

/-- Rust `String::len` (UTF-8 byte length). -/
def utf8Len (s : String) : Nat :=
  (strBytes s).length

/-- The 95-symbol printable-ASCII charset `(32..=126).collect()` built at
the crack call sites (`src/core/src/crack.rs`,
`src/server/src/crack_hashes.rs`). -/
def printableCharset : List Nat :=
  (List.range 95).map (fun i => 32 + i)

/-! ## MD5 (RFC 1321), used to evaluate the chain engine on concrete inputs

The repository hashes through the `md5` crate
(`src/core/src/algorithms.rs`, `generate_md5_hash`); the reference
algorithm is reproduced here over byte lists so that concrete chain
endpoints can be computed inside Lean. -/

/-- Per-round left-rotation amounts of MD5. -/
def md5S : List Nat :=
  [7, 12, 17, 22, 7, 12, 17, 22, 7, 12, 17, 22, 7, 12, 17, 22,
   5, 9, 14, 20, 5, 9, 14, 20, 5, 9, 14, 20, 5, 9, 14, 20,
   4, 11, 16, 23, 4, 11, 16, 23, 4, 11, 16, 23, 4, 11, 16, 23,
   6, 10, 15, 21, 6, 10, 15, 21, 6, 10, 15, 21, 6, 10, 15, 21]

/-- MD5 sine-derived round constants `K[i] = ⌊|sin (i+1)| · 2³²⌋`. -/
def md5K : List Nat :=
  [3614090360, 3905402710, 606105819, 3250441966, 4118548399, 1200080426,
   2821735955, 4249261313, 1770035416, 2336552879, 4294925233, 2304563134,
   1804603682, 4254626195, 2792965006, 1236535329, 4129170786, 3225465664,
   643717713, 3921069994, 3593408605, 38016083, 3634488961, 3889429448,
   568446438, 3275163606, 4107603335, 1163531501, 2850285829, 4243563512,
   1735328473, 2368359562, 4294588738, 2272392833, 1839030562, 4259657740,
   2763975236, 1272893353, 4139469664, 3200236656, 681279174, 3936430074,
   3572445317, 76029189, 3654602809, 3873151461, 530742520, 3299628645,
   4096336452, 1126891415, 2878612391, 4237533241, 1700485571, 2399980690,
   4293915773, 2240044497, 1873313359, 4264355552, 2734768916, 1309151649,
   4149444226, 3174756917, 718787259, 3951481745]

/-- 32-bit left rotation on a word already reduced modulo `2³²`. -/
def rotl32 (x s : Nat) : Nat :=
  ((x <<< s) ||| (x >>> (32 - s))) % 4294967296

/-- MD5 auxiliary function `F`. -/
def md5F (b c d : Nat) : Nat := (b &&& c) ||| ((4294967295 ^^^ b) &&& d)

/-- MD5 auxiliary function `G`. -/
def md5G (b c d : Nat) : Nat := (d &&& b) ||| ((4294967295 ^^^ d) &&& c)

/-- MD5 auxiliary function `H`. -/
def md5H (b c d : Nat) : Nat := b ^^^ c ^^^ d

/-- MD5 auxiliary function `I`. -/
def md5I (b c d : Nat) : Nat := c ^^^ (b ||| (4294967295 ^^^ d))

/-- One of the 64 MD5 rounds over the schedule of the current block. -/
def md5Round (M : List Nat) (st : Nat × Nat × Nat × Nat) (i : Nat) :
    Nat × Nat × Nat × Nat :=
  let (a, b, c, d) := st
  let fg : Nat × Nat :=
    if i < 16 then (md5F b c d, i)
    else if i < 32 then (md5G b c d, (5 * i + 1) % 16)
    else if i < 48 then (md5H b c d, (3 * i + 5) % 16)
    else (md5I b c d, (7 * i) % 16)
  let tmp := (a + fg.1 + md5K.getD i 0 + M.getD fg.2 0) % 4294967296
  let nb := (b + rotl32 tmp (md5S.getD i 0)) % 4294967296
  (d, nb, b, c)

/-- Compression of one 64-byte block into the running MD5 state. -/
def md5Block (st : Nat × Nat × Nat × Nat) (block : List Nat) :
    Nat × Nat × Nat × Nat :=
  let M := (List.range 16).map (fun j => fromLEBytes ((block.drop (4 * j)).take 4))
  let r := (List.range 64).foldl (md5Round M) st
  ((st.1 + r.1) % 4294967296, (st.2.1 + r.2.1) % 4294967296,
   (st.2.2.1 + r.2.2.1) % 4294967296, (st.2.2.2 + r.2.2.2) % 4294967296)

/-- MD5 padding: `0x80`, zeros to 56 mod 64, then the 64-bit little-endian
bit length. -/
def md5Pad (msg : List Nat) : List Nat :=
  let z := (120 - ((msg.length + 1) % 64)) % 64
  msg ++ 128 :: List.replicate z 0 ++ leBytes 8 ((8 * msg.length) % (2 ^ 64))

/-- The 16-byte MD5 digest of a byte sequence. -/
def md5Bytes (msg : List Nat) : List Nat :=
  let padded := md5Pad msg
  let blocks := (List.range (padded.length / 64)).map
    (fun i => (padded.drop (64 * i)).take 64)
  let r := blocks.foldl md5Block (1732584193, 4023233417, 2562383102, 271733878)
  leBytes 4 r.1 ++ leBytes 4 r.2.1 ++ leBytes 4 r.2.2.1 ++ leBytes 4 r.2.2.2

/-- `generate_md5_hash` (`src/core/src/algorithms.rs`): MD5 of the
password's UTF-8 bytes. -/
def md5Hash (password : String) : List Nat :=
  md5Bytes (strBytes password)

/-- One lowercase hexadecimal digit, as the `hex` crate emits it. -/
def hexDigit (n : Nat) : Nat :=
  if n < 10 then 48 + n else 87 + n

/-- ASCII bytes of `hex::encode` of a byte sequence. -/
def hexBytes (bs : List Nat) : List Nat :=
  bs.flatMap (fun b => [hexDigit (b / 16), hexDigit (b % 16)])

/-- `hex::encode` as a string. -/
def hexStr (bs : List Nat) : String :=
  String.mk ((hexBytes bs).map Char.ofNat)

/-! ## The two reduction schemes

`src/core/src/reduction.rs` (`reduce`) indexes the charset by the bytes
of the (hex-encoded) digest and ignores the round index;
`src/core/src/algorithms.rs` (`reduction_function` / `encode`) is the
arithmetic scheme over the digest read as a little-endian integer. -/

/-- `reduce` (`src/core/src/reduction.rs`).  The input is the byte view
`hash.as_bytes()` of the `&str` argument.  For each output position
`i < password_len` it picks `charset[hash_bytes[i % hash_bytes.len()] % charset.len()]`;
the `_ascii_offset` parameter is unused by the source.  When
`password_len > 0` an empty byte view or an empty charset panics
(remainder by zero / out-of-bounds index), modelled as `none`. -/
def reduce (hashBytes : List Nat) (passwordLen : Nat) (charset : List Nat) :
    Option String :=
  if passwordLen = 0 then some ""
  else if hashBytes = [] ∨ charset = [] then none
  else some (String.mk ((List.range passwordLen).map (fun i =>
    Char.ofNat (charset.getD (hashBytes.getD (i % hashBytes.length) 0 % charset.length) 0))))

/-- Fuel-indexed digit loop; `num` itself always suffices as fuel
because the dividend strictly decreases. -/
def encodeDigitsAux (r : Nat) : Nat → Nat → List Nat
  | _, 0 => []
  | num, fuel + 1 =>
    if num = 0 ∨ r ≤ 1 then []
    else (num % r) :: encodeDigitsAux r (num / r) fuel

/-- The digit loop of `encode` (`src/core/src/algorithms.rs`): base-`r`
digits of `num`, least-significant first, stopping at zero.  The source
only ever calls it with `r = 95`; the `r ≤ 1` guard marks the bases at
which the Rust loop would not terminate (or divide by zero). -/
def encodeDigits (r : Nat) (num : Nat) : List Nat :=
  encodeDigitsAux r num num

/-- `encode` (`src/core/src/algorithms.rs`): push the base-`r` digits of
`num` shifted into printable ASCII (`digit + 32`), least-significant
digit first, then pad with spaces up to `length` characters.  All pushed
characters are single-byte, so Rust's byte-length test coincides with
the character count. -/
def encode (num : Nat) (r : Nat) (length : Nat) : String :=
  let digs := (encodeDigits r num).map (fun d => Char.ofNat (d + 32))
  String.mk (digs ++ List.replicate (length - digs.length) ' ')

/-- `reduction_function` (`src/core/src/algorithms.rs`).  The digest is
read little-endian into a `U512` (panics for more than 64 bytes), the
round is added with the `uint` crate's checked `+` (panics on 512-bit
overflow regardless of build profile), and the modulus is
`radix.pow(password_length)` computed in `u128` (wraps modulo `2¹²⁸`
when overflow checks are off; with them on, `95^P` for `P ≥ 20` panics
instead — the wrapped value is used here and the affected range is kept
out of every proved statement).  Panics are modelled as `none`. -/
def reduction_function (hash : List Nat) (round : Nat)
    (passwordLength : Nat) (radixVal : Nat) : Option String :=
  if 64 < hash.length then none
  else if 2 ^ 512 ≤ fromLEBytes hash + round then none
  else if (radixVal ^ passwordLength) % 2 ^ 128 = 0 then none
  else some (encode ((fromLEBytes hash + round) % ((radixVal ^ passwordLength) % 2 ^ 128))
    radixVal passwordLength)

/-- The reduction map exactly as the specification words it: interpret
the digest as a big unsigned integer, add the round, reduce modulo
`95^P`, and write the `P` base-95 digits as ASCII characters by adding
32 to each digit, spaces (code 32, the zero digit) filling the
most-significant positions.  Digits are written least-significant
first, the direction the source uses; the specification fixes no
direction. -/
def specArithReduction (hash : List Nat) (round : Nat) (P : Nat) : String :=
  let n := (fromLEBytes hash + round) % 95 ^ P
  String.mk ((List.range P).map (fun i => Char.ofNat ((n / 95 ^ i) % 95 + 32)))

/-! ## Chain engine: build side and crack side -/

/-- `create_chain` (`src/core/src/generate_rainbow_table.rs`): `num_links`
iterations of hash-then-`reduction_function`, the round index running
`0, 1, …`, the target length being the byte length of the current
password and the radix the constant 95.  The hash primitive is a
parameter, as in the source. -/
def create_chain (hashFunc : String → List Nat) (password : String)
    (numLinks : Nat) : Option String :=
  (List.range numLinks).foldl
    (fun acc round => acc.bind (fun pwd =>
      reduction_function (hashFunc pwd) round (utf8Len pwd) 95))
    (some password)

/-- One hash-then-`reduce` step of the local cracker
(`src/core/src/crack.rs`): hash the candidate, hex-encode the digest,
and reduce the hex bytes with the printable charset. -/
def crackStep (hashFunc : String → List Nat) (passwordLen : Nat)
    (pwd : String) : Option String :=
  reduce (hexBytes (hashFunc pwd)) passwordLen printableCharset

/-- `steps` forward applications of `crackStep`; this is both the
cracker's "reverse simulation" loop and its forward replay
(`src/core/src/crack.rs`). -/
def crackReplay (hashFunc : String → List Nat) (passwordLen : Nat) :
    String → Nat → Option String
  | pwd, 0 => some pwd
  | pwd, steps + 1 =>
    (crackStep hashFunc passwordLen pwd).bind
      (fun next => crackReplay hashFunc passwordLen next steps)

/-- A `(start, end)` chain record (`ChainEntry` in `src/core/src/crack.rs`,
`Chain` in `src/server/src/cache_memory.rs`). -/
structure ChainEntry where
  start : String
  endp : String
deriving DecidableEq, Repr

/-- `HashMap::entry(k).or_insert(v)` over an association list: keep the
existing binding, otherwise append. -/
def orInsert (m : List (String × String)) (k v : String) :
    List (String × String) :=
  if (m.lookup k).isSome then m else m ++ [(k, v)]

/-- The forward scan of the local cracker's inner loop
(`src/core/src/crack.rs`, `crack_passwords`): for `n` iterations, hash
the candidate, record it under its hex digest when that digest is a
requested hash, then step the candidate by `reduce`.  The final
(unused) reduction is still executed, as in the source; a `reduce`
panic aborts the whole computation (`none`). -/
def forwardScan (hashFunc : String → List Nat) (passwordLen : Nat)
    (targets : List String) :
    Nat → String → List (String × String) → Option (List (String × String))
  | 0, _, found => some found
  | n + 1, candidate, found =>
    let hashHex := hexStr (hashFunc candidate)
    let found1 := if targets.contains hashHex then orInsert found hashHex candidate
      else found
    (crackStep hashFunc passwordLen candidate).bind
      (fun next => forwardScan hashFunc passwordLen targets n next found1)

/-- One iteration of the cracker's outer `for i in (0..num_links).rev()`
loop: a reverse simulation of `num_links - i` steps from the chain's
end whose result is discarded, then a full forward scan from the
chain's start. -/
def crackChainIter (hashFunc : String → List Nat) (passwordLen numLinks : Nat)
    (targets : List String) (chain : ChainEntry) (i : Nat)
    (found : List (String × String)) : Option (List (String × String)) :=
  (crackReplay hashFunc passwordLen chain.endp (numLinks - i)).bind
    (fun _ => forwardScan hashFunc passwordLen targets numLinks chain.start found)

/-- The found-map produced by `crack_passwords`
(`src/core/src/crack.rs`) for one chain: the outer loop runs
`i = num_links-1` down to `0`. -/
def crackChain (hashFunc : String → List Nat) (passwordLen numLinks : Nat)
    (targets : List String) (chain : ChainEntry)
    (found : List (String × String)) : Option (List (String × String)) :=
  (List.range numLinks).reverse.foldl
    (fun acc i => acc.bind (crackChainIter hashFunc passwordLen numLinks targets chain i))
    (some found)

/-- The complete found-map of `crack_passwords` (`src/core/src/crack.rs`)
across all chains.  The source distributes chains over a `rayon` pool
sharing the map under a mutex; which candidate is kept for a hash found
in several chains is scheduling-dependent, and this model fixes the
textual chain order (every per-entry property proved below is
interleaving-independent). -/
def crack_passwords_core (hashFunc : String → List Nat)
    (passwordLen numLinks : Nat) (chains : List ChainEntry)
    (targets : List String) : Option (List (String × String)) :=
  chains.foldl
    (fun acc chain => acc.bind (crackChain hashFunc passwordLen numLinks targets chain))
    (some [])

/-! ## The crack procedure as the specification words it (§4.2)

"for each `i = L-1` down to `0`, compute `reduce(H, i)`, then apply the
chain engine starting from that reduced password for `(L-1-i)` further
steps; if the resulting endpoint equals `end`, replay the chain from
`start` for `i` steps to recover the candidate …  On match, verify by
hashing the candidate and comparing to `H`."  The reduction is left as
a parameter because the claim does not pin down which of the two
schemes `reduce` refers to; both instantiations appear below. -/

/-- One candidate search of the specification's crack procedure against
a single chain, scanning depths `i = L-1` down to `0`. -/
def spec_crack_chain (hashFunc : String → List Nat)
    (reduceFn : List Nat → Nat → String) (numLinks : Nat)
    (targetDigest : List Nat) (chain : ChainEntry) : Option String :=
  (List.range numLinks).reverse.findSome? (fun i =>
    let reduced := reduceFn targetDigest i
    let endpoint := (List.range (numLinks - 1 - i)).foldl
      (fun p k => reduceFn (hashFunc p) (i + 1 + k)) reduced
    if endpoint = chain.endp then
      let candidate := (List.range i).foldl
        (fun p k => reduceFn (hashFunc p) k) chain.start
      if hexStr (hashFunc candidate) = hexStr targetDigest then some candidate
      else none
    else none)

/-- The specification's crack procedure over a whole table: each target
hash is recovered from the first chain whose endpoint matches at some
depth, after the hash-verification filter. -/
def spec_crack (hashFunc : String → List Nat)
    (reduceFn : List Nat → Nat → String) (numLinks : Nat)
    (chains : List ChainEntry) (targetDigests : List (List Nat)) :
    List (String × String) :=
  targetDigests.filterMap (fun d =>
    (chains.findSome? (spec_crack_chain hashFunc reduceFn numLinks d)).map
      (fun candidate => (hexStr d, candidate)))

/-- The arithmetic reduction (total form) at password length `P`, the
specification's reference scheme. -/
def arithRed (P : Nat) : List Nat → Nat → String :=
  fun d r => specArithReduction d r P

/-- The hex-indexing reduction at password length `P` (round ignored),
the scheme `reduce` implements; total on nonempty digests. -/
def hexRed (P : Nat) : List Nat → Nat → String :=
  fun d _ => (reduce (hexBytes d) P printableCharset).getD ""

/-! ## Server: in-memory cache (`src/server/src/cache_memory.rs`) -/

/-- The server error taxonomy (`ServerError`), restricted to the
variants the embedded operations produce. -/
inductive ServerError where
  | noRainbowTableFound
  | invalidAlgorithm
  | passwordNotFoundInCache
  | noPasswordsFound
deriving DecidableEq, Repr

/-- `CrackedPassword` (`src/server/src/cache_memory.rs`). -/
structure CrackedPassword where
  hash : String
  password : String
deriving DecidableEq, Repr

/-- Association-list lookup with decidable key equality, modelling
`DashMap::get`. -/
def alookup {κ α : Type} [DecidableEq κ] : List (κ × α) → κ → Option α
  | [], _ => none
  | (k', v) :: t, k => if k' = k then some v else alookup t k

/-- Association-list insert-or-replace, modelling `DashMap::entry` /
`HashMap::insert` when the new value overwrites. -/
def aupsert {κ α : Type} [DecidableEq κ] : List (κ × α) → κ → α → List (κ × α)
  | [], k, v => [(k, v)]
  | (k', v') :: t, k, v => if k' = k then (k, v) :: t else (k', v') :: aupsert t k v

/-- `AlgorithmCache`: per-algorithm rainbow tables keyed by password
length then by number of links, plus the cracked-password memo. -/
structure AlgorithmCache where
  passwordLen : List (Nat × List (Nat × List ChainEntry))
  crackedPasswords : List (String × CrackedPassword)
deriving DecidableEq, Repr

/-- The fresh `AlgorithmCache` the `or_insert_with` closures build. -/
def emptyAlgorithmCache : AlgorithmCache := ⟨[], []⟩

/-- `Cache` (`src/server/src/cache_memory.rs`): algorithm-keyed caches, a
byte budget and the atomically counted current size.  Concurrent maps
and the atomic counter are modelled by their sequential contents; every
claim about them is stated for sequential call sequences. -/
structure Cache where
  algorithms : List (String × AlgorithmCache)
  maxCacheSize : Nat
  currentCacheSize : Nat
deriving DecidableEq, Repr

/-- `Cache::new_with_size`. -/
def Cache.new_with_size (maxCacheSize : Nat) : Cache :=
  ⟨[], maxCacheSize, 0⟩

/-- `Cache::insert_chain`: create the intermediate entries on demand and
append the chain to the per-`(algorithm, password_len, num_links)`
vector. -/
def insert_chain (c : Cache) (algorithm : String) (passwordLen numLinks : Nat)
    (chain : ChainEntry) : Cache :=
  let ac := (alookup c.algorithms algorithm).getD emptyAlgorithmCache
  let rt := (alookup ac.passwordLen passwordLen).getD []
  let vec := (alookup rt numLinks).getD []
  { c with algorithms := (aupsert c.algorithms algorithm
      ({ ac with passwordLen := (aupsert ac.passwordLen passwordLen
          (aupsert rt numLinks (vec ++ [chain]))) })) }

/-- `Cache::get_all_chains`: `NoRainbowTableFound` when the algorithm or
the password length is absent or the per-length map is empty, otherwise
a snapshot of every chain bucket. -/
def get_all_chains (c : Cache) (algorithm : String) (passwordLen : Nat) :
    Except ServerError (List (Nat × List ChainEntry)) :=
  match alookup c.algorithms algorithm with
  | none => .error .noRainbowTableFound
  | some ac =>
    match alookup ac.passwordLen passwordLen with
    | none => .error .noRainbowTableFound
    | some rt => if rt = [] then .error .noRainbowTableFound else .ok rt

/-- `Cache::insert_cracked_password`: compute
`size_estimate = hash.len() + password.len()`; when the counted size
plus the estimate would exceed the budget, return with nothing changed;
otherwise create the algorithm entry on demand and insert only if the
hash is absent, adding the estimate to the counter exactly on a fresh
insert. -/
def insert_cracked_password (c : Cache) (algorithm : String)
    (password : CrackedPassword) : Cache :=
  let sizeEstimate := utf8Len password.hash + utf8Len password.password
  if c.maxCacheSize < c.currentCacheSize + sizeEstimate then c
  else
    let ac := (alookup c.algorithms algorithm).getD emptyAlgorithmCache
    match alookup ac.crackedPasswords password.hash with
    | some _ => { c with algorithms := aupsert c.algorithms algorithm ac }
    | none =>
      { c with
        algorithms := (aupsert c.algorithms algorithm
          ({ ac with crackedPasswords := ac.crackedPasswords ++ [(password.hash, password)] }))
        currentCacheSize := c.currentCacheSize + sizeEstimate }

/-- `Cache::get_cracked_password`: `InvalidAlgorithm` when the algorithm
is unknown, `PasswordNotFoundInCache` when the hash is unknown. -/
def get_cracked_password (c : Cache) (algorithm hash : String) :
    Except ServerError CrackedPassword :=
  match alookup c.algorithms algorithm with
  | none => .error .invalidAlgorithm
  | some ac =>
    match alookup ac.crackedPasswords hash with
    | none => .error .passwordNotFoundInCache
    | some v => .ok v

/-- `Except.isOk` test, used to express "present in the cache". -/
def exceptIsOk {ε α : Type} : Except ε α → Bool
  | .ok _ => true
  | .error _ => false

/-- Decidable equality of results, for evaluating handlers on concrete
inputs. -/
instance {ε α : Type} [DecidableEq ε] [DecidableEq α] :
    DecidableEq (Except ε α) := fun x y =>
  match x, y with
  | .ok a, .ok b =>
    if h : a = b then .isTrue (by rw [h])
    else .isFalse (fun hh => h (Except.ok.inj hh))
  | .error a, .error b =>
    if h : a = b then .isTrue (by rw [h])
    else .isFalse (fun hh => h (Except.error.inj hh))
  | .ok _, .error _ => .isFalse (fun hh => Except.noConfusion hh)
  | .error _, .ok _ => .isFalse (fun hh => Except.noConfusion hh)

/-- Sequential execution of a list of `insert_cracked_password` calls. -/
def applyInserts (c : Cache) (ops : List (String × CrackedPassword)) : Cache :=
  ops.foldl (fun cc op => insert_cracked_password cc op.1 op.2) c

/-! ## Server: crack handler (`src/server/src/crack_hashes.rs`) -/

/-- One hash-then-`reduce` step of the server cracker, with the charset
the handler supplies. -/
def serverReduceStep (hashFunc : String → List Nat) (passwordLen : Nat)
    (charset : List Nat) (pwd : String) : Option String :=
  reduce (hexBytes (hashFunc pwd)) passwordLen charset

/-- Iterated `serverReduceStep`; the server cracker's reverse-simulation
loop. -/
def serverReplay (hashFunc : String → List Nat) (passwordLen : Nat)
    (charset : List Nat) : String → Nat → Option String
  | pwd, 0 => some pwd
  | pwd, steps + 1 =>
    (serverReduceStep hashFunc passwordLen charset pwd).bind
      (fun next => serverReplay hashFunc passwordLen charset next steps)

/-- The server cracker's forward scan (`crack_passwords` in
`src/server/src/crack_hashes.rs`): like the local one but it breaks out
of the loop as soon as a requested hash is matched, before the final
reduction. -/
def forwardScanBreak (hashFunc : String → List Nat) (passwordLen : Nat)
    (charset : List Nat) (targets : List String) :
    Nat → String → List (String × String) → Option (List (String × String))
  | 0, _, found => some found
  | n + 1, candidate, found =>
    let hashHex := hexStr (hashFunc candidate)
    if targets.contains hashHex then some (orInsert found hashHex candidate)
    else
      (serverReduceStep hashFunc passwordLen charset candidate).bind
        (fun next => forwardScanBreak hashFunc passwordLen charset targets n next found)

/-- `crack_passwords` (`src/server/src/crack_hashes.rs`): for every
`(num_links, chains)` bucket and every chain, a discarded reverse
simulation from the end followed by the forward scan from the start;
`NoPasswordsFound` when the found-map stays empty.  Bucket iteration
order of the `HashMap` is arbitrary; the list order stands in for it. -/
def server_crack_passwords (hashFunc : String → List Nat)
    (rainbowTableChains : List (Nat × List ChainEntry))
    (hashesToCrack : List String) (passwordLen : Nat) (charset : List Nat) :
    Option (Except ServerError (List (String × String))) :=
  let foundO := rainbowTableChains.foldl
    (fun acc bucket => bucket.2.foldl
      (fun acc2 chain => acc2.bind (fun f =>
        (serverReplay hashFunc passwordLen charset chain.endp bucket.1).bind
          (fun _ => forwardScanBreak hashFunc passwordLen charset hashesToCrack
            bucket.1 chain.start f)))
      acc)
    (some [])
  foundO.map (fun found =>
    if found = [] then .error .noPasswordsFound else .ok found)

/-- The cached-hit pass of the `crack` handler: for each requested hash
in order, a successful `get_cracked_password` inserts
`(hash, password)` into the result map. -/
def crackCachedHits (c : Cache) (algorithm : String) (hashes : List String) :
    List (String × String) :=
  hashes.foldl (fun acc h =>
    match get_cracked_password c algorithm h with
    | .ok cracked => aupsert acc h cracked.password
    | .error _ => acc) []

/-- The decision core of the `crack` handler
(`src/server/src/crack_hashes.rs`, after the request is parsed): when
the cached-hit map is non-empty it is returned as the whole response;
otherwise the stored chains are fetched and cracked and every recovered
pair is inserted into the cracked cache.  The boolean of the result
records whether chain-based cracking ran; `none` models a panic inside
the cracker. -/
def crack_handler (hashFunc : String → List Nat) (c : Cache)
    (algorithm : String) (passwordLen : Nat) (hashes : List String) :
    Option (Except ServerError (List (String × String)) × Cache × Bool) :=
  let hits := crackCachedHits c algorithm hashes
  if hits = [] then
    match get_all_chains c algorithm passwordLen with
    | .error e => some (.error e, c, false)
    | .ok chains =>
      match server_crack_passwords hashFunc chains hashes passwordLen printableCharset with
      | none => none
      | some (.error e) => some (.error e, c, true)
      | some (.ok cracked) =>
        some (.ok cracked,
          cracked.foldl (fun cc hp => insert_cracked_password cc algorithm ⟨hp.1, hp.2⟩) c,
          true)
  else some (.ok hits, c, false)

/-! ## Table-builder validation and password generator -/

/-- The core error type (`HashassinError`), restricted to the variants
the embedded functions produce. -/
inductive HashassinError where
  | invalidInput (msg : String)
  | invalidThreadCount
  | unknownAlgorithm (algo : String)
deriving DecidableEq, Repr

/-- `validate_inputs` (`src/core/src/generate_rainbow_table.rs`): checks
positivity of links and threads and non-emptiness of the three strings;
no check on the algorithm's value. -/
def validate_inputs (numLinks threads : Nat)
    (outFile algorithm inFile : String) : Except HashassinError Unit :=
  if numLinks = 0 then
    .error (.invalidInput "Number of links must be greater than 0")
  else if threads = 0 then .error .invalidThreadCount
  else if outFile = "" then
    .error (.invalidInput "Output file path cannot be empty")
  else if algorithm = "" then
    .error (.invalidInput "Algorithm cannot be empty")
  else if inFile = "" then
    .error (.invalidInput "Input file path cannot be empty")
  else .ok ()

/-- Outcome of the worker dispatch in `generate_rainbow_chain`
(`src/core/src/generate_rainbow_table.rs`). -/
inductive ChainDispatch where
  | buildsChain
  | rejects (e : HashassinError)
deriving DecidableEq, Repr

/-- The `match algorithm_clone.as_str()` dispatch of
`generate_rainbow_chain`: the arms for `md5`, `sha256`, `sha3_512` and
`scrypt` each call `create_chain` (with `generate_scrypt_hash` — the
salted, non-deterministic primitive — in the scrypt arm); only other
strings produce `UnknownAlgorithm`. -/
def generate_rainbow_chain_dispatch (algorithm : String) : ChainDispatch :=
  if algorithm = "md5" then .buildsChain
  else if algorithm = "sha256" then .buildsChain
  else if algorithm = "sha3_512" then .buildsChain
  else if algorithm = "scrypt" then .buildsChain
  else .rejects (.unknownAlgorithm algorithm)

/-- The worker plan of `generate_passwords`
(`src/core/src/generate_passwords.rs`): `num_per_threads` starts at
`num` and becomes `num / threads` (integer division) only when
`threads ≤ num`, while the worker count drops to `num` only when
`threads > num`.  Result: `(worker count, passwords per worker)`. -/
def gen_passwords_plan (threads num : Nat) : Nat × Nat :=
  if threads ≤ num then (threads, num / threads) else (num, num)

/-- Total number of passwords emitted: each spawned worker
(`create_gen_password_thread`) loops exactly `num_per_thread` times. -/
def total_passwords_emitted (threads num : Nat) : Nat :=
  (List.replicate (gen_passwords_plan threads num).1
    (gen_passwords_plan threads num).2).sum

/-- `generate_passwords` (`src/core/src/generate_passwords.rs`) reduced
to its observable count: thread counts below 1 are rejected, otherwise
the spawned workers emit `total_passwords_emitted` lines. -/
def generate_passwords (threads num : Nat) : Except HashassinError Nat :=
  if threads < 1 then .error .invalidThreadCount
  else .ok (total_passwords_emitted threads num)

/-! ## Server upload record width (`src/server/src/save_rainbow_table.rs`) -/

/-- `let chain_size = password_len[0] * 2;` — the product of two `u8`
values stays a `u8`, so the record width is `(2·P) mod 256` (with
overflow checks enabled the multiplication for `P ≥ 128` panics
instead of wrapping; either way the intended width `2·P` is lost). -/
def upload_chain_size (passwordLen : Nat) : Nat :=
  (passwordLen * 2) % 256

/-! ## Sample cache values used by concrete witnesses -/

/-- A cache holding one cracked password for `md5`. -/
def sampleCrackedCache : Cache :=
  insert_cracked_password (Cache.new_with_size 100) "md5" ⟨"aa", "pw"⟩

/-! ## Helper lemmas -/

/-- `Char.ofNat` is value-faithful below the surrogate range. -/
theorem char_toNat_ofNat (n : Nat) (h : n < 55296) : (Char.ofNat n).toNat = n := by
  unfold Char.ofNat Char.ofNatAux
  split
  · rfl
  · exact absurd (Or.inl h) (by assumption)

/-- Boolean `contains` agrees with membership for strings. -/
theorem string_contains_iff (a : String) (l : List String) :
    l.contains a = true ↔ a ∈ l := by
  rw [List.contains_eq_any_beq]
  simp

/-- The charset `(32..=126)` read at a valid index. -/
theorem printableCharset_getD (i : Nat) (h : i < 95) :
    printableCharset.getD i 0 = 32 + i := by
  rw [printableCharset, List.getD_eq_getElem?_getD, List.getElem?_map,
    List.getElem?_range h]
  rfl

/-- The digit loop ignores surplus fuel. -/
theorem encodeDigitsAux_congr (r : Nat) :
    ∀ (f1 f2 num : Nat), num ≤ f1 → num ≤ f2 →
      encodeDigitsAux r num f1 = encodeDigitsAux r num f2 := by
  intro f1
  induction f1 with
  | zero =>
    intro f2 num h1 h2
    have h0 : num = 0 := by omega
    subst h0
    cases f2 <;> simp [encodeDigitsAux]
  | succ f1 ih =>
    intro f2 num h1 h2
    cases f2 with
    | zero =>
      have h0 : num = 0 := by omega
      subst h0
      simp [encodeDigitsAux]
    | succ f2 =>
      by_cases hcond : num = 0 ∨ r ≤ 1
      · simp [encodeDigitsAux, if_pos hcond]
      · simp only [encodeDigitsAux, if_neg hcond]
        push_neg at hcond
        have hlt : num / r < num :=
          Nat.div_lt_self (Nat.pos_of_ne_zero hcond.1) (by omega)
        exact congrArg _ (ih f2 (num / r) (by omega) (by omega))

/-- The defining recurrence of the digit loop. -/
theorem encodeDigits_eq (r num : Nat) :
    encodeDigits r num
      = if num = 0 ∨ r ≤ 1 then [] else (num % r) :: encodeDigits r (num / r) := by
  by_cases hcond : num = 0 ∨ r ≤ 1
  · rw [if_pos hcond]
    cases num with
    | zero => rfl
    | succ k =>
      have hr : r ≤ 1 := by
        rcases hcond with h | h
        · omega
        · exact h
      unfold encodeDigits
      simp [encodeDigitsAux, hr]
  · rw [if_neg hcond]
    push_neg at hcond
    obtain ⟨h0, hr⟩ := hcond
    cases num with
    | zero => exact absurd rfl h0
    | succ k =>
      unfold encodeDigits
      simp only [encodeDigitsAux, if_neg (by push_neg; exact ⟨h0, hr⟩ :
        ¬(k + 1 = 0 ∨ r ≤ 1))]
      have hdivle : (k + 1) / r ≤ k := by
        have := Nat.div_lt_self (by omega : 0 < k + 1) (by omega : 1 < r)
        omega
      exact congrArg _ (encodeDigitsAux_congr r k ((k + 1) / r) ((k + 1) / r)
        hdivle le_rfl)

/-- Every digit the `encode` loop produces is below the radix. -/
theorem encodeDigits_lt (r : Nat) (hr : 2 ≤ r) :
    ∀ n, ∀ d ∈ encodeDigits r n, d < r := by
  intro n
  induction n using Nat.strong_induction_on with
  | _ n ih =>
    rw [encodeDigits_eq]
    split
    · simp
    · rename_i hcond
      intro d hd
      rcases List.mem_cons.mp hd with h | h
      · subst h
        exact Nat.mod_lt _ (by omega)
      · exact ih (n / r)
          (Nat.div_lt_self (Nat.pos_of_ne_zero (fun hn => hcond (Or.inl hn))) (by omega))
          d h

/-- A number below `r^P` has at most `P` digits. -/
theorem encodeDigits_length_le (r : Nat) (hr : 2 ≤ r) :
    ∀ P n, n < r ^ P → (encodeDigits r n).length ≤ P := by
  intro P
  induction P with
  | zero =>
    intro n hn
    rw [pow_zero] at hn
    have h0 : n = 0 := by omega
    subst h0
    rw [encodeDigits_eq]
    simp
  | succ P ih =>
    intro n hn
    rw [encodeDigits_eq]
    split
    · simp
    · rename_i hcond
      have hpos : 0 < n := Nat.pos_of_ne_zero (fun h0 => hcond (Or.inl h0))
      have : n / r < r ^ P := by
        rw [Nat.div_lt_iff_lt_mul (by omega)]
        calc n < r ^ (P + 1) := hn
        _ = r ^ P * r := by ring
      simpa using Nat.succ_le_succ (ih (n / r) this)

/-- The digit loop followed by zero-padding to width `P` writes exactly
the `P` least-significant-first base-`r` digits. -/
theorem encodeDigits_pad_eq {α : Type} (r : Nat) (hr : 2 ≤ r) (f : Nat → α) :
    ∀ P n, n < r ^ P →
      (encodeDigits r n).map f
          ++ List.replicate (P - (encodeDigits r n).length) (f 0)
        = (List.range P).map (fun i => f (n / r ^ i % r)) := by
  intro P
  induction P with
  | zero =>
    intro n hn
    rw [pow_zero] at hn
    have h0 : n = 0 := by omega
    subst h0
    rw [encodeDigits_eq]
    simp
  | succ P ih =>
    intro n hn
    by_cases h0 : n = 0
    · subst h0
      rw [encodeDigits_eq, if_pos (Or.inl rfl)]
      simp [Nat.zero_div, List.map_const']
    · rw [encodeDigits_eq, if_neg (by push_neg; exact ⟨h0, by omega⟩)]
      have hdiv : n / r < r ^ P := by
        rw [Nat.div_lt_iff_lt_mul (by omega : 0 < r)]
        calc n < r ^ (P + 1) := hn
        _ = r ^ P * r := by ring
      have heq := ih (n / r) hdiv
      rw [List.range_succ_eq_map, List.map_cons]
      simp only [List.map_cons, List.map_map, List.length_cons, List.cons_append]
      congr 1
      · simp
      · have hsub : P + 1 - ((encodeDigits r (n / r)).length + 1)
            = P - (encodeDigits r (n / r)).length := by omega
        rw [hsub, heq]
        refine List.map_congr_left ?_
        intro i _
        simp only [Function.comp_apply, Nat.succ_eq_add_one]
        rw [Nat.div_div_eq_div_mul, ← pow_succ']

/-- The `u128` modulus `95^P mod 2^128` is never zero (95 is odd). -/
theorem modBy_ne_zero (P : Nat) : (95 : Nat) ^ P % 2 ^ 128 ≠ 0 := by
  intro h
  have h2 : (2 : Nat) ∣ 95 ^ P :=
    dvd_trans (dvd_pow_self 2 (by norm_num)) (Nat.dvd_of_mod_eq_zero h)
  have := Nat.Prime.dvd_of_dvd_pow Nat.prime_two h2
  omega

/-- Claim C3 (amended): on every input where the source's machine
arithmetic does not overflow — digest of at most 64 bytes, a `u128`
round with `D + r < 2⁵¹²`, and `95^P` within `u128` — the production
reduction scheme maps `(D, r, P)` to the password obtained by
interpreting `D` as a big (little-endian) unsigned integer, adding `r`,
reducing modulo `95^P`, and writing the `P` base-95 digits
(least-significant first) as ASCII characters by adding 32 to each
digit, spaces (code 32) filling the most-significant digit
positions. -/
theorem reduction_function_matches_spec (hash : List Nat) (round P : Nat)
    (hlen : hash.length ≤ 64) (hround : round < 2 ^ 128)
    (hsum : fromLEBytes hash + round < 2 ^ 512) (hP : 95 ^ P < 2 ^ 128) :
    reduction_function hash round P 95 = some (specArithReduction hash round P) := by
  rw [reduction_function, if_neg (by omega), if_neg (by omega),
    if_neg (modBy_ne_zero P)]
  have h95 : (95 : Nat) ^ P % 2 ^ 128 = 95 ^ P := Nat.mod_eq_of_lt hP
  rw [h95]
  congr 1
  rw [encode, specArithReduction]
  have hspace : (' ' : Char) = Char.ofNat (0 + 32) := by decide
  rw [hspace, List.length_map]
  exact congrArg String.mk
    (encodeDigits_pad_eq 95 (by omega) (fun d => Char.ofNat (d + 32)) P
      ((fromLEBytes hash + round) % 95 ^ P)
      (Nat.mod_lt (fromLEBytes hash + round) (by positivity)))

/-- Claim C3, counterexample to the unrestricted statement: on the
all-`0xFF` 64-byte digest with round 1, `reduction_function` panics
(checked 512-bit addition overflow in the `uint` crate), so it does not
produce the password the claim's arithmetic description yields. -/
theorem reduction_function_spec_counterexample :
    reduction_function (List.replicate 64 255 : List Nat) 1 2 95
      ≠ some (specArithReduction (List.replicate 64 255 : List Nat) 1 2) := by
  decide

/-- Witness for `reduction_function_matches_spec` at the two-byte digest
`[1, 2]`, round 0, password length 2. -/
theorem reduction_function_matches_spec_witness :
    ([1, 2] : List Nat).length ≤ 64 ∧ (0 : Nat) < 2 ^ 128 ∧
    fromLEBytes [1, 2] + 0 < 2 ^ 512 ∧ (95 : Nat) ^ 2 < 2 ^ 128 ∧
    reduction_function [1, 2] 0 2 95 = some (specArithReduction [1, 2] 0 2) :=
  ⟨by decide, by decide, by decide, by decide,
    reduction_function_matches_spec [1, 2] 0 2 (by decide) (by decide)
      (by decide) (by decide)⟩

/-- Claim C5 (amended): both reduction variants return a string of
length exactly `P` whose characters all lie in `32..=126` — the
hex-indexing `reduce` for every non-empty input and every `P`, and the
arithmetic `reduction_function` additionally provided its checked
512-bit addition `D + r` does not overflow. -/
theorem reduction_variants_output_range :
    (∀ (hashBytes : List Nat) (P : Nat), hashBytes ≠ [] →
      ∃ s, reduce hashBytes P printableCharset = some s ∧ s.length = P ∧
        ∀ c ∈ s.data, 32 ≤ c.toNat ∧ c.toNat ≤ 126)
    ∧ (∀ (hash : List Nat) (round P : Nat), hash.length ≤ 64 →
        round < 2 ^ 128 → fromLEBytes hash + round < 2 ^ 512 →
        ∃ s, reduction_function hash round P 95 = some s ∧ s.length = P ∧
          ∀ c ∈ s.data, 32 ≤ c.toNat ∧ c.toNat ≤ 126) := by
  constructor
  · intro hashBytes P hne
    by_cases hP : P = 0
    · subst hP
      refine ⟨"", rfl, rfl, ?_⟩
      intro c hc
      exact absurd hc (List.not_mem_nil c)
    · rw [reduce, if_neg hP, if_neg (by simp [hne]; decide)]
      refine ⟨_, rfl, by simp [String.length], ?_⟩
      intro c hc
      rcases List.mem_map.mp hc with ⟨i, _, rfl⟩
      have hidx : hashBytes.getD (i % hashBytes.length) 0 % printableCharset.length
          < 95 := by
        have hcslen : printableCharset.length = 95 := by decide
        rw [hcslen]
        exact Nat.mod_lt _ (by omega)
      obtain ⟨k, hk95, hkeq⟩ :
          ∃ k, k < 95 ∧
            hashBytes.getD (i % hashBytes.length) 0 % printableCharset.length = k :=
        ⟨_, hidx, rfl⟩
      have hk55 : 32 + k < 55296 := by omega
      rw [hkeq, printableCharset_getD k hk95, char_toNat_ofNat (32 + k) hk55]
      exact ⟨by omega, by omega⟩
  · intro hash round P hlen hround hsum
    rw [reduction_function, if_neg (by omega), if_neg (by omega),
      if_neg (modBy_ne_zero P)]
    have hmodpos : 0 < 95 ^ P % 2 ^ 128 :=
      Nat.pos_of_ne_zero (modBy_ne_zero P)
    have hn95 : (fromLEBytes hash + round) % (95 ^ P % 2 ^ 128) < 95 ^ P :=
      lt_of_lt_of_le (Nat.mod_lt _ hmodpos) (Nat.mod_le _ _)
    have hdigs := encodeDigits_length_le 95 (by omega) P _ hn95
    refine ⟨_, rfl, ?_, ?_⟩
    · rw [encode]
      simp only [String.length, List.length_append, List.length_map,
        List.length_replicate]
      omega
    · intro c hc
      rw [encode] at hc
      rcases List.mem_append.mp hc with h | h
      · rcases List.mem_map.mp h with ⟨d, hd, rfl⟩
        have hd95 := encodeDigits_lt 95 (by omega) _ d hd
        rw [char_toNat_ofNat _ (by omega)]
        omega
      · rw [List.eq_of_mem_replicate h]
        decide

/-- Claim C5, counterexample to the unrestricted statement: the
arithmetic variant panics (checked 512-bit addition overflow) on the
all-`0xFF` 64-byte digest with round 1 and target length 2, returning
no string at all. -/
theorem reduction_range_counterexample :
    reduction_function (List.replicate 64 255 : List Nat) 1 2 95 = none := by
  decide

/-- Witness for `reduction_variants_output_range`: both variants applied
at concrete in-range inputs. -/
theorem reduction_variants_output_range_witness :
    (([7] : List Nat) ≠ [] ∧
      ∃ s, reduce [7] 3 printableCharset = some s ∧ s.length = 3 ∧
        ∀ c ∈ s.data, 32 ≤ c.toNat ∧ c.toNat ≤ 126)
    ∧ (([1, 2] : List Nat).length ≤ 64 ∧ (5 : Nat) < 2 ^ 128 ∧
        fromLEBytes [1, 2] + 5 < 2 ^ 512 ∧
      ∃ s, reduction_function [1, 2] 5 2 95 = some s ∧ s.length = 2 ∧
        ∀ c ∈ s.data, 32 ≤ c.toNat ∧ c.toNat ≤ 126) :=
  ⟨⟨by decide, reduction_variants_output_range.1 [7] 3 (by decide)⟩,
   ⟨by decide, by decide, by decide,
    reduction_variants_output_range.2 [1, 2] 5 2 (by decide) (by decide) (by decide)⟩⟩

/-- Claim C1: the endpoint the table builder records for start `"ab"`
with one md5 link is `"HB"` (arithmetic `reduction_function`), while
the local cracker's forward replay of one hash-then-reduce step from
the same start yields `"QX"` (hex-indexing `reduce`): the two call
sites do not use the same reduction scheme and the `(start, endpoint)`
pair is not reproduced. -/
theorem builder_vs_cracker_endpoint_mismatch :
    create_chain md5Hash "ab" 1 = some "HB" ∧
    crackReplay md5Hash 2 "ab" 1 = some "QX" ∧
    create_chain md5Hash "ab" 1 ≠ crackReplay md5Hash 2 "ab" 1 := by
  refine ⟨by decide, by decide, by decide⟩

/-- Claim C2, counterexample: for the loaded table with the single chain
`("ab", "zz")`, one md5 link and password length 2, the local cracker
recovers `"ab"` for the hash of `"ab"`, while the specification's
procedure (under either reduction scheme) recovers nothing — the
reduced hash does not match the stored endpoint `"zz"`, so the
procedure never replays the chain. -/
theorem crack_procedure_counterexample :
    crack_passwords_core md5Hash 2 1 [⟨"ab", "zz"⟩] [hexStr (md5Hash "ab")]
        = some [(hexStr (md5Hash "ab"), "ab")] ∧
    spec_crack md5Hash (arithRed 2) 1 [⟨"ab", "zz"⟩] [md5Hash "ab"] = [] ∧
    spec_crack md5Hash (hexRed 2) 1 [⟨"ab", "zz"⟩] [md5Hash "ab"] = [] := by
  refine ⟨by decide, by decide, by decide⟩

/-- Folding an option-threaded step over any list propagates `none`. -/
theorem foldl_bind_none {α β : Type} (g : β → α → Option α) (l : List β) :
    l.foldl (fun acc i => acc.bind (g i)) none = none := by
  induction l with
  | nil => rfl
  | cons x xs ih => simpa using ih

/-- Members of `orInsert m k v` come from `m` or are the new pair. -/
theorem orInsert_mem (m : List (String × String)) (k v : String) :
    ∀ x ∈ orInsert m k v, x ∈ m ∨ x = (k, v) := by
  intro x hx
  rw [orInsert] at hx
  split at hx
  · exact Or.inl hx
  · rcases List.mem_append.mp hx with h | h
    · exact Or.inl h
    · exact Or.inr (by simpa using h)

/-- Soundness of the forward scan: every entry of the output map was
already present or is a pair `(h, p)` with `h` a requested hash,
`h` the hex digest of `p`, and `p` reached from the scan's starting
candidate by fewer than `n` hash-then-reduce steps. -/
theorem forwardScan_sound (hashFunc : String → List Nat) (P : Nat)
    (targets : List String) :
    ∀ (n : Nat) (cand : String) (found found' : List (String × String)),
      forwardScan hashFunc P targets n cand found = some found' →
      ∀ hp ∈ found', hp ∈ found ∨
        (hp.1 ∈ targets ∧ hexStr (hashFunc hp.2) = hp.1 ∧
          ∃ j < n, crackReplay hashFunc P cand j = some hp.2) := by
  intro n
  induction n with
  | zero =>
    intro cand found found' heq hp hmem
    rw [forwardScan] at heq
    cases heq
    exact Or.inl hmem
  | succ n ih =>
    intro cand found found' heq hp hmem
    rw [forwardScan] at heq
    rcases Option.bind_eq_some.mp heq with ⟨next, hstep, hrec⟩
    rcases ih next _ found' hrec hp hmem with hin1 | ⟨ht, hhex, j, hj, hrep⟩
    · by_cases hcont : targets.contains (hexStr (hashFunc cand))
      · rw [if_pos hcont] at hin1
        rcases orInsert_mem _ _ _ hp hin1 with hold | hnew
        · exact Or.inl hold
        · subst hnew
          refine Or.inr ⟨(string_contains_iff _ _).mp hcont, rfl, 0, by omega, rfl⟩
      · rw [if_neg hcont] at hin1
        exact Or.inl hin1
    · refine Or.inr ⟨ht, hhex, j + 1, by omega, ?_⟩
      rw [crackReplay, hstep]
      exact hrep

/-- Soundness of one outer-loop iteration of the local cracker: new
entries are target hashes verified against their candidate, reached
from the chain's start in fewer than `L` steps. -/
theorem crackChainIter_sound (hashFunc : String → List Nat) (P L : Nat)
    (targets : List String) (chain : ChainEntry) (i : Nat)
    (found found' : List (String × String))
    (heq : crackChainIter hashFunc P L targets chain i found = some found') :
    ∀ hp ∈ found', hp ∈ found ∨
      (hp.1 ∈ targets ∧ hexStr (hashFunc hp.2) = hp.1 ∧
        ∃ j < L, crackReplay hashFunc P chain.start j = some hp.2) := by
  rw [crackChainIter] at heq
  rcases Option.bind_eq_some.mp heq with ⟨_, _, hscan⟩
  exact forwardScan_sound hashFunc P targets L chain.start found found' hscan

/-- Soundness of the whole per-chain loop of the local cracker. -/
theorem crackChain_sound (hashFunc : String → List Nat) (P L : Nat)
    (targets : List String) (chain : ChainEntry) :
    ∀ (is : List Nat) (found found' : List (String × String)),
      is.foldl (fun acc i =>
          acc.bind (crackChainIter hashFunc P L targets chain i)) (some found)
        = some found' →
      ∀ hp ∈ found', hp ∈ found ∨
        (hp.1 ∈ targets ∧ hexStr (hashFunc hp.2) = hp.1 ∧
          ∃ j < L, crackReplay hashFunc P chain.start j = some hp.2) := by
  intro is
  induction is with
  | nil =>
    intro found found' heq hp hmem
    cases heq
    exact Or.inl hmem
  | cons i is ih =>
    intro found found' heq hp hmem
    rw [List.foldl_cons] at heq
    rcases hstep : crackChainIter hashFunc P L targets chain i found with _ | f1
    · rw [Option.some_bind, hstep, foldl_bind_none] at heq
      cases heq
    · rw [Option.some_bind, hstep] at heq
      rcases ih f1 found' heq hp hmem with hin1 | hprop
      · exact crackChainIter_sound hashFunc P L targets chain i found f1 hstep hp hin1
      · exact Or.inr hprop

/-- Claim C2 (amended): what `crack_passwords` actually guarantees.  Any
pair `(h, p)` it reports satisfies: `h` is one of the requested hashes,
hashing `p` yields exactly `h` (the verification is inherent — a
candidate is recorded only when its digest is a requested hash), and
`p` lies on the forward hash-then-`reduce` path of some stored chain's
start at depth below `L`.  No `reduce(H, i)` precomputation and no
endpoint comparison precede the replay: the cracker walks every chain
forward from `start` unconditionally. -/
theorem crack_passwords_core_sound (hashFunc : String → List Nat)
    (P L : Nat) (chains : List ChainEntry) (targets : List String)
    (found : List (String × String))
    (heq : crack_passwords_core hashFunc P L chains targets = some found) :
    ∀ hp ∈ found, hp.1 ∈ targets ∧ hexStr (hashFunc hp.2) = hp.1 ∧
      ∃ c ∈ chains, ∃ j < L, crackReplay hashFunc P c.start j = some hp.2 := by
  rw [crack_passwords_core] at heq
  suffices h : ∀ (cs : List ChainEntry) (acc found' : List (String × String)),
      cs.foldl (fun acc chain => acc.bind (crackChain hashFunc P L targets chain))
          (some acc) = some found' →
      ∀ hp ∈ found', hp ∈ acc ∨
        (hp.1 ∈ targets ∧ hexStr (hashFunc hp.2) = hp.1 ∧
          ∃ c ∈ cs, ∃ j < L, crackReplay hashFunc P c.start j = some hp.2) by
    intro hp hmem
    rcases h chains [] found heq hp hmem with hnil | hprop
    · exact absurd hnil (List.not_mem_nil hp)
    · exact hprop
  intro cs
  induction cs with
  | nil =>
    intro acc found' heqf hp hmem
    cases heqf
    exact Or.inl hmem
  | cons c cs ih =>
    intro acc found' heqf hp hmem
    rw [List.foldl_cons] at heqf
    rcases hstep : crackChain hashFunc P L targets c acc with _ | f1
    · rw [Option.some_bind, hstep, foldl_bind_none] at heqf
      cases heqf
    · rw [Option.some_bind, hstep] at heqf
      rcases ih f1 found' heqf hp hmem with hin1 | ⟨ht, hhex, c', hc', hj⟩
      · rcases crackChain_sound hashFunc P L targets c _ acc f1 hstep hp hin1 with
          hacc | ⟨ht, hhex, j, hjL, hrep⟩
        · exact Or.inl hacc
        · exact Or.inr ⟨ht, hhex, c, List.mem_cons_self c cs, j, hjL, hrep⟩
      · exact Or.inr ⟨ht, hhex, c', List.mem_cons_of_mem c hc', hj⟩

/-- Witness for `crack_passwords_core_sound` on the concrete one-chain
md5 table: the reported pair is verified and start-reachable. -/
theorem crack_passwords_core_sound_witness :
    crack_passwords_core md5Hash 2 1 [⟨"ab", "zz"⟩] [hexStr (md5Hash "ab")]
        = some [(hexStr (md5Hash "ab"), "ab")] ∧
    (hexStr (md5Hash "ab") ∈ [hexStr (md5Hash "ab")] ∧
      hexStr (md5Hash "ab") = hexStr (md5Hash "ab") ∧
      ∃ c ∈ [(⟨"ab", "zz"⟩ : ChainEntry)], ∃ j < 1,
        crackReplay md5Hash 2 c.start j = some "ab") :=
  ⟨by decide,
    crack_passwords_core_sound md5Hash 2 1 [⟨"ab", "zz"⟩]
      [hexStr (md5Hash "ab")] [(hexStr (md5Hash "ab"), "ab")] (by decide)
      (hexStr (md5Hash "ab"), "ab") (by simp)⟩

/-- Claim C4: the password generator does not emit exactly `N` lines.
With `T = 2 ≤ N = 5` it emits `2 · ⌊5/2⌋ = 4` passwords, and with
`T = 3 > N = 2` it spawns `N = 2` workers that each emit
`num_per_threads = N = 2` passwords, for `N² = 4` in total. -/
theorem generate_passwords_count_bug :
    generate_passwords 2 5 = .ok 4 ∧ (4 : Nat) ≠ 5 ∧
    generate_passwords 3 2 = .ok 4 ∧ (4 : Nat) ≠ 2 := by
  refine ⟨by decide, by decide, by decide, by decide⟩

/-- Claim C6: the table builder accepts `"scrypt"` — input validation
only rejects the empty string, and the worker dispatch has a scrypt arm
that builds chains with the salted scrypt primitive instead of
returning an error. -/
theorem scrypt_accepted_by_builder :
    validate_inputs 5 1 "out.bin" "scrypt" "in.txt" = .ok () ∧
    generate_rainbow_chain_dispatch "scrypt" = .buildsChain := by
  refine ⟨by decide, by decide⟩

/-- Insertion never changes the configured byte budget. -/
theorem insert_cracked_password_maxCacheSize (c : Cache) (a : String)
    (p : CrackedPassword) :
    (insert_cracked_password c a p).maxCacheSize = c.maxCacheSize := by
  simp only [insert_cracked_password]
  split
  · rfl
  · split <;> rfl

/-- Insertion preserves the counted-size bound. -/
theorem insert_cracked_password_size_le (c : Cache) (a : String)
    (p : CrackedPassword) (h : c.currentCacheSize ≤ c.maxCacheSize) :
    (insert_cracked_password c a p).currentCacheSize ≤ c.maxCacheSize := by
  simp only [insert_cracked_password]
  split
  · exact h
  · rename_i hle
    split
    · exact h
    · show c.currentCacheSize + (utf8Len p.hash + utf8Len p.password)
        ≤ c.maxCacheSize
      omega

/-- Any sequence of insertions preserves the counted-size bound. -/
theorem applyInserts_size_le (ops : List (String × CrackedPassword)) :
    ∀ (c : Cache), c.currentCacheSize ≤ c.maxCacheSize →
      (applyInserts c ops).currentCacheSize ≤ c.maxCacheSize := by
  induction ops with
  | nil => exact fun c h => h
  | cons op ops ih =>
    intro c h
    have hmax := insert_cracked_password_maxCacheSize c op.1 op.2
    have hstep : (insert_cracked_password c op.1 op.2).currentCacheSize
        ≤ (insert_cracked_password c op.1 op.2).maxCacheSize := by
      rw [hmax]
      exact insert_cracked_password_size_le c op.1 op.2 h
    have htail := ih (insert_cracked_password c op.1 op.2) hstep
    rw [hmax] at htail
    rw [applyInserts, List.foldl_cons]
    exact htail

/-- Claim C7: starting from an empty cache, after any sequence of
sequential `insert_cracked_password` calls the counted size stays
within `max_cache_size`; and a call whose candidate size added to the
current counted size would exceed the budget returns with the whole
cache — map and counter — unchanged. -/
theorem cache_admission_bound :
    (∀ (maxSize : Nat) (ops : List (String × CrackedPassword)),
        (applyInserts (Cache.new_with_size maxSize) ops).currentCacheSize
          ≤ maxSize)
    ∧ ∀ (c : Cache) (a : String) (p : CrackedPassword),
        c.maxCacheSize < c.currentCacheSize
            + (utf8Len p.hash + utf8Len p.password) →
        insert_cracked_password c a p = c := by
  constructor
  · intro maxSize ops
    exact applyInserts_size_le ops (Cache.new_with_size maxSize) (Nat.zero_le _)
  · intro c a p h
    simp only [insert_cracked_password, if_pos h]

/-- Witness for `cache_admission_bound`: a budget of 3 bytes drops the
4-byte candidate `("ab", "cd")` and the counter stays at 0. -/
theorem cache_admission_bound_witness :
    (applyInserts (Cache.new_with_size 3) [("md5", ⟨"ab", "cd"⟩)]).currentCacheSize
        ≤ 3
    ∧ ((Cache.new_with_size 3).maxCacheSize
          < (Cache.new_with_size 3).currentCacheSize
            + (utf8Len (CrackedPassword.mk "ab" "cd").hash
              + utf8Len (CrackedPassword.mk "ab" "cd").password)
        ∧ insert_cracked_password (Cache.new_with_size 3) "md5" ⟨"ab", "cd"⟩
            = Cache.new_with_size 3) :=
  ⟨cache_admission_bound.1 3 [("md5", ⟨"ab", "cd"⟩)],
   by decide,
   cache_admission_bound.2 (Cache.new_with_size 3) "md5" ⟨"ab", "cd"⟩ (by decide)⟩

/-- Lookup after insert-or-replace finds the inserted value. -/
theorem alookup_aupsert {κ α : Type} [DecidableEq κ]
    (m : List (κ × α)) (k : κ) (v : α) :
    alookup (aupsert m k v) k = some v := by
  induction m with
  | nil => simp [aupsert, alookup]
  | cons kv t ih =>
    obtain ⟨k', v'⟩ := kv
    by_cases hk : k' = k
    · subst hk
      simp [aupsert, alookup]
    · simp [aupsert, alookup, hk, ih]

/-- Claim C8: once a hash is mapped for an algorithm, any further
`insert_cracked_password` for the same `(algorithm, hash)` — with any
password — leaves the stored value unchanged. -/
theorem cracked_cache_monotonic (c : Cache) (a hsh pw' : String)
    (p : CrackedPassword)
    (hp : get_cracked_password c a hsh = .ok p) :
    get_cracked_password (insert_cracked_password c a ⟨hsh, pw'⟩) a hsh
      = .ok p := by
  rcases hac : alookup c.algorithms a with _ | ac
  · simp only [get_cracked_password, hac] at hp
    exact Except.noConfusion hp
  · rcases hv : alookup ac.crackedPasswords hsh with _ | v
    · simp only [get_cracked_password, hac, hv] at hp
      exact Except.noConfusion hp
    · simp only [get_cracked_password, hac, hv, Except.ok.injEq] at hp
      subst hp
      simp only [insert_cracked_password]
      split
      · simp only [get_cracked_password, hac, hv]
      · simp only [hac, Option.getD_some, hv]
        simp only [get_cracked_password, alookup_aupsert, hv]

/-- Witness for `cracked_cache_monotonic`: re-inserting hash `"aa"` with
a different password leaves the stored pair `("aa", "pw")` intact. -/
theorem cracked_cache_monotonic_witness :
    get_cracked_password sampleCrackedCache "md5" "aa"
        = .ok ⟨"aa", "pw"⟩ ∧
    get_cracked_password
        (insert_cracked_password sampleCrackedCache "md5" ⟨"aa", "other"⟩)
        "md5" "aa" = .ok ⟨"aa", "pw"⟩ :=
  ⟨by decide,
    cracked_cache_monotonic sampleCrackedCache "md5" "aa" "other"
      ⟨"aa", "pw"⟩ (by decide)⟩

/-- Insert-or-replace never empties a map. -/
theorem aupsert_ne_nil {κ α : Type} [DecidableEq κ]
    (m : List (κ × α)) (k : κ) (v : α) : aupsert m k v ≠ [] := by
  cases m with
  | nil => simp [aupsert]
  | cons kv t =>
    obtain ⟨k', v'⟩ := kv
    rw [aupsert]
    split <;> simp

/-- The cached-hit fold returns the empty map exactly when its
accumulator was empty and no requested hash is in the cracked cache. -/
theorem crackCachedHits_aux (c : Cache) (a : String) :
    ∀ (hashes : List String) (acc : List (String × String)),
      hashes.foldl (fun acc h =>
        match get_cracked_password c a h with
        | .ok cracked => aupsert acc h cracked.password
        | .error _ => acc) acc = []
      ↔ acc = [] ∧
          ∀ h ∈ hashes, exceptIsOk (get_cracked_password c a h) = false := by
  intro hashes
  induction hashes with
  | nil =>
    intro acc
    simp
  | cons h t ih =>
    intro acc
    rw [List.foldl_cons]
    rcases hg : get_cracked_password c a h with e | cr
    · simp only [hg]
      rw [ih acc]
      constructor
      · rintro ⟨hnil, hall⟩
        refine ⟨hnil, ?_⟩
        intro h' hh'
        rcases List.mem_cons.mp hh' with rfl | hmem
        · simp [hg, exceptIsOk]
        · exact hall h' hmem
      · rintro ⟨hnil, hall⟩
        exact ⟨hnil, fun h' hh' => hall h' (List.mem_cons_of_mem h hh')⟩
    · simp only [hg]
      rw [ih (aupsert acc h cr.password)]
      constructor
      · rintro ⟨hnil, _⟩
        exact absurd hnil (aupsert_ne_nil acc h cr.password)
      · rintro ⟨_, hall⟩
        have := hall h (List.mem_cons_self h t)
        rw [hg] at this
        exact absurd this (by simp [exceptIsOk])

/-- The handler's cached-hit map is empty exactly when none of the
requested hashes is in the cracked cache. -/
theorem crackCachedHits_eq_nil_iff (c : Cache) (a : String)
    (hashes : List String) :
    crackCachedHits c a hashes = []
      ↔ ∀ h ∈ hashes, exceptIsOk (get_cracked_password c a h) = false := by
  rw [crackCachedHits, crackCachedHits_aux]
  simp

/-- Claim C9: whenever at least one requested hash is present in the
cracked cache for the request's algorithm, the handler's response is
exactly the cached-hit map, the cache is untouched, and chain-based
cracking does not run; conversely chain-based cracking runs only when
every requested hash misses the cracked cache. -/
theorem crack_handler_cache_priority (hashFunc : String → List Nat)
    (c : Cache) (a : String) (P : Nat) (hashes : List String)
    (out : Except ServerError (List (String × String)) × Cache × Bool)
    (hout : crack_handler hashFunc c a P hashes = some out) :
    ((∃ h ∈ hashes, exceptIsOk (get_cracked_password c a h) = true) →
        out = (.ok (crackCachedHits c a hashes), c, false))
    ∧ (out.2.2 = true →
        ∀ h ∈ hashes, exceptIsOk (get_cracked_password c a h) = false) := by
  by_cases hnil : crackCachedHits c a hashes = []
  · have hall := (crackCachedHits_eq_nil_iff c a hashes).mp hnil
    refine ⟨?_, fun _ => hall⟩
    rintro ⟨h, hh, hok⟩
    rw [hall h hh] at hok
    cases hok
  · rw [crack_handler, if_neg hnil] at hout
    injection hout with hout
    refine ⟨fun _ => hout.symm, ?_⟩
    intro htrue
    rw [← hout] at htrue
    cases htrue

/-- Witness for `crack_handler_cache_priority`: with `"aa"` cached, a
request for `{"aa", "bb"}` is answered from the cache alone. -/
theorem crack_handler_cache_priority_witness :
    crack_handler md5Hash sampleCrackedCache "md5" 2 ["aa", "bb"]
        = some (.ok [("aa", "pw")], sampleCrackedCache, false) ∧
    ((.ok [("aa", "pw")], sampleCrackedCache, false) :
        Except ServerError (List (String × String)) × Cache × Bool)
      = (.ok (crackCachedHits sampleCrackedCache "md5" ["aa", "bb"]),
          sampleCrackedCache, false) :=
  ⟨by decide,
    (crack_handler_cache_priority md5Hash sampleCrackedCache "md5" 2
      ["aa", "bb"] (.ok [("aa", "pw")], sampleCrackedCache, false)
      (by decide)).1 ⟨"aa", by decide, by decide⟩⟩

/-- Claim C10: the upload handler's record width is the 8-bit product
`password_len * 2`, i.e. `(2·P) mod 256`, and it coincides with the
intended width `2·P` exactly for `P ≤ 127`. -/
theorem upload_chain_width (P : Nat) (hP : P ≤ 255) :
    upload_chain_size P = (P * 2) % 256 ∧
    (upload_chain_size P = 2 * P ↔ P ≤ 127) := by
  refine ⟨rfl, ?_⟩
  rw [upload_chain_size]
  omega

/-- Witness for `upload_chain_width` at the first overflowing length
`P = 128`, whose computed record width is 0, not 256. -/
theorem upload_chain_width_witness :
    (128 : Nat) ≤ 255 ∧
    (upload_chain_size 128 = (128 * 2) % 256 ∧
      (upload_chain_size 128 = 2 * 128 ↔ (128 : Nat) ≤ 127)) :=
  ⟨by decide, upload_chain_width 128 (by decide)⟩
